import Mathlib

set_option maxRecDepth 100000

/-!
Shallow embedding of the tg-summarizer pipeline (src/summarize.py):
message records, the Selector (fetch_unread_messages / fetch_last_messages),
the Batcher (chunk_messages), the Reducer (summarize_chat) and the main
driver's control flow, together with proofs of the spec's testable
properties.
-/

namespace TgSummarizer

/-- Constant MAX_CONTEXT_CHARS from summarize.py. -/
def MAX_CONTEXT_CHARS : Nat := 6000

/-- Constant DEFAULT_MAX_CHATS from summarize.py. -/
def DEFAULT_MAX_CHATS : Nat := 5

/-- Constant DEFAULT_MAX_MESSAGES from summarize.py. -/
def DEFAULT_MAX_MESSAGES : Nat := 100

/-- A normalized message record as built by the fetch functions:
the dicts {"sender": ..., "text": ..., "date": ...}. -/
structure Msg where
  sender : String
  text : String
  date : Nat
deriving DecidableEq, Repr

/-- The formatted text of one record inside chunk_messages:
`msg_text = f"{sender}: {text}" if msg['sender'] else msg['text']`. -/
def msgText (m : Msg) : String :=
  if m.sender = "" then m.text else m.sender ++ ": " ++ m.text

/-- `msg_size = len(msg_text)` in chunk_messages. -/
def fmtLen (m : Msg) : Nat := (msgText m).length

/-- One iteration of the loop body of chunk_messages over the running state
(chunks, current_chunk, current_size). -/
def chunkStep (max_chars : Nat) (st : List (List Msg) × List Msg × Nat) (m : Msg) :
    List (List Msg) × List Msg × Nat :=
  let s := fmtLen m
  let st' :=
    if st.2.2 + s > max_chars ∧ st.2.1 ≠ [] then (st.1 ++ [st.2.1], ([] : List Msg), 0)
    else st
  (st'.1, st'.2.1 ++ [m], st'.2.2 + s)

/-- The trailing `if current_chunk: chunks.append(current_chunk)` of
chunk_messages. -/
def finishChunks (st : List (List Msg) × List Msg × Nat) : List (List Msg) :=
  if st.2.1 ≠ [] then st.1 ++ [st.2.1] else st.1

/-- chunk_messages from summarize.py: greedy left-to-right batching of the
message list under the character budget `max_chars`. -/
def chunk_messages (messages : List Msg) (max_chars : Nat) : List (List Msg) :=
  finishChunks (messages.foldl (chunkStep max_chars) ([], [], 0))

/-- Structural companion of the chunking loop: starting from an accumulated
size `acc`, take messages while the running size stays within the budget,
returning (taken, rest). -/
def twb (budget : Nat) : Nat → List Msg → List Msg × List Msg
  | _, [] => ([], [])
  | acc, m :: ms =>
    if acc + fmtLen m > budget then ([], m :: ms)
    else
      let p := twb budget (acc + fmtLen m) ms
      (m :: p.1, p.2)

theorem twb_append (budget : Nat) : ∀ (acc : Nat) (l : List Msg),
    (twb budget acc l).1 ++ (twb budget acc l).2 = l := by
  intro acc l
  induction l generalizing acc with
  | nil => simp [twb]
  | cons m ms ih =>
    by_cases h : acc + fmtLen m > budget
    · simp [twb, h]
    · simp [twb, h, ih]

theorem twb_snd_suffix (budget : Nat) : ∀ (acc : Nat) (l : List Msg),
    (twb budget acc l).2 <:+ l := by
  intro acc l
  induction l generalizing acc with
  | nil => simp [twb]
  | cons m ms ih =>
    by_cases h : acc + fmtLen m > budget
    · simp [twb, h]
    · simpa [twb, h] using (ih (acc + fmtLen m)).trans (List.suffix_cons m ms)

theorem twb_snd_length (budget acc : Nat) (l : List Msg) :
    (twb budget acc l).2.length ≤ l.length :=
  (twb_snd_suffix budget acc l).length_le

/-- Recursive characterization of chunk_messages: the first batch is the
first message plus what twb takes, then recurse on the rest. -/
def chunkSpec (budget : Nat) : List Msg → List (List Msg)
  | [] => []
  | m :: ms =>
    (m :: (twb budget (fmtLen m) ms).1) :: chunkSpec budget (twb budget (fmtLen m) ms).2
termination_by l => l.length
decreasing_by
  simp only [List.length_cons]
  exact Nat.lt_succ_of_le (twb_snd_length _ _ _)

theorem chunkSpec_nil (budget : Nat) : chunkSpec budget [] = [] := by
  simp [chunkSpec]

theorem chunkSpec_cons (budget : Nat) (m : Msg) (ms : List Msg) :
    chunkSpec budget (m :: ms) =
      (m :: (twb budget (fmtLen m) ms).1) ::
        chunkSpec budget (twb budget (fmtLen m) ms).2 := by
  rw [chunkSpec]

/-- The fold implementing the Python loop agrees with the structural
characterization, for any nonempty current batch. -/
theorem foldl_chunkStep_eq (budget : Nat) :
    ∀ (l : List Msg) (chunks : List (List Msg)) (cur : List Msg) (acc : Nat),
      cur ≠ [] →
      finishChunks (l.foldl (chunkStep budget) (chunks, cur, acc)) =
        chunks ++ ((cur ++ (twb budget acc l).1) :: chunkSpec budget (twb budget acc l).2) := by
  intro l
  induction l with
  | nil =>
    intro chunks cur acc hcur
    simp [finishChunks, twb, chunkSpec_nil, hcur]
  | cons m ms ih =>
    intro chunks cur acc hcur
    by_cases h : acc + fmtLen m > budget
    · have hstep : chunkStep budget (chunks, cur, acc) m =
          (chunks ++ [cur], [m], fmtLen m) := by
        simp [chunkStep, h, hcur]
      have := ih (chunks ++ [cur]) [m] (fmtLen m) (by simp)
      simp only [List.foldl_cons, hstep, this]
      simp [twb, h, chunkSpec_cons]
    · have hstep : chunkStep budget (chunks, cur, acc) m =
          (chunks, cur ++ [m], acc + fmtLen m) := by
        simp [chunkStep, h]
      have := ih chunks (cur ++ [m]) (acc + fmtLen m) (by simp)
      simp only [List.foldl_cons, hstep, this]
      simp [twb, h]

/-- chunk_messages computes exactly the structural recursion chunkSpec. -/
theorem chunk_messages_eq_chunkSpec (messages : List Msg) (budget : Nat) :
    chunk_messages messages budget = chunkSpec budget messages := by
  cases messages with
  | nil => simp [chunk_messages, finishChunks, chunkSpec_nil]
  | cons m ms =>
    have hstep : chunkStep budget ([], [], 0) m = ([], [m], fmtLen m) := by
      simp [chunkStep]
    unfold chunk_messages
    simp only [List.foldl_cons, hstep]
    rw [foldl_chunkStep_eq budget ms [] [m] (fmtLen m) (by simp)]
    simp [chunkSpec_cons]

theorem chunkSpec_join_aux (budget : Nat) :
    ∀ (n : Nat) (l : List Msg), l.length ≤ n → (chunkSpec budget l).flatten = l := by
  intro n
  induction n with
  | zero =>
    intro l hl
    have : l = [] := List.eq_nil_of_length_eq_zero (Nat.le_zero.mp hl)
    simp [this, chunkSpec_nil]
  | succ n ih =>
    intro l hl
    cases l with
    | nil => simp [chunkSpec_nil]
    | cons m ms =>
      rw [chunkSpec_cons]
      have hlen : (twb budget (fmtLen m) ms).2.length ≤ n :=
        le_trans (twb_snd_length _ _ _) (Nat.lt_succ_iff.mp hl)
      simp only [List.flatten_cons, ih _ hlen, List.cons_append]
      rw [twb_append]

/-- If the accumulated size already fits, the taken part keeps the total
within the budget. -/
theorem twb_fst_sum (budget : Nat) :
    ∀ (l : List Msg) (acc : Nat), acc ≤ budget →
      acc + (((twb budget acc l).1.map fmtLen).sum) ≤ budget := by
  intro l
  induction l with
  | nil => intro acc h; simpa [twb] using h
  | cons m ms ih =>
    intro acc h
    by_cases hgt : acc + fmtLen m > budget
    · simpa [twb, hgt] using h
    · have := ih (acc + fmtLen m) (Nat.le_of_not_lt hgt)
      simp only [twb, if_neg hgt, List.map_cons, List.sum_cons]
      omega

/-- An over-budget accumulator takes nothing. -/
theorem twb_fst_nil_of_gt (budget acc : Nat) (l : List Msg) (h : budget < acc) :
    (twb budget acc l).1 = [] := by
  cases l with
  | nil => simp [twb]
  | cons m ms =>
    have : acc + fmtLen m > budget := Nat.lt_of_lt_of_le h (Nat.le_add_right _ _)
    simp [twb, this]

theorem chunkSpec_batch_bound (budget : Nat) :
    ∀ (n : Nat) (l : List Msg), l.length ≤ n →
      ∀ batch ∈ chunkSpec budget l,
        (batch.map fmtLen).sum ≤ budget ∨ ∃ m, batch = [m] ∧ budget < fmtLen m := by
  intro n
  induction n with
  | zero =>
    intro l hl batch hb
    have : l = [] := List.eq_nil_of_length_eq_zero (Nat.le_zero.mp hl)
    simp [this, chunkSpec_nil] at hb
  | succ n ih =>
    intro l hl batch hb
    cases l with
    | nil => simp [chunkSpec_nil] at hb
    | cons m ms =>
      rw [chunkSpec_cons] at hb
      rcases List.mem_cons.mp hb with hhead | htail
      · by_cases hm : fmtLen m ≤ budget
        · left
          subst hhead
          simpa [List.map_cons, List.sum_cons] using twb_fst_sum budget ms (fmtLen m) hm
        · right
          refine ⟨m, ?_, Nat.lt_of_not_le hm⟩
          rw [hhead, twb_fst_nil_of_gt budget (fmtLen m) ms (Nat.lt_of_not_le hm)]
      · exact ih _ (le_trans (twb_snd_length _ _ _) (Nat.lt_succ_iff.mp hl)) batch htail

/-- Monotonicity of the leftover part of twb: a larger budget or a smaller
accumulator consumes at least as much, so its leftover is a suffix. -/
theorem twb_snd_suffix_mono (b1 b2 : Nat) (hb : b1 ≤ b2) :
    ∀ (l : List Msg) (acc1 acc2 : Nat), acc2 ≤ acc1 →
      (twb b2 acc2 l).2 <:+ (twb b1 acc1 l).2 := by
  intro l
  induction l with
  | nil => intro acc1 acc2 _; simp [twb]
  | cons m ms ih =>
    intro acc1 acc2 hacc
    by_cases h2 : acc2 + fmtLen m > b2
    · have h1 : acc1 + fmtLen m > b1 :=
        Nat.lt_of_le_of_lt hb (Nat.lt_of_lt_of_le h2 (Nat.add_le_add_right hacc _))
      simp [twb, h1, h2]
    · by_cases h1 : acc1 + fmtLen m > b1
      · simp only [twb, if_pos h1, if_neg h2]
        exact ((twb_snd_suffix b2 (acc2 + fmtLen m) ms).trans (List.suffix_cons m ms))
      · simp only [twb, if_neg h1, if_neg h2]
        exact ih (acc1 + fmtLen m) (acc2 + fmtLen m) (Nat.add_le_add_right hacc _)

/-- What the chunking loop leaves after removing the first batch. -/
def restOf (budget : Nat) : List Msg → List Msg
  | [] => []
  | m :: ms => (twb budget (fmtLen m) ms).2

theorem restOf_suffix (budget : Nat) (l : List Msg) : restOf budget l <:+ l := by
  cases l with
  | nil => simp [restOf]
  | cons m ms =>
    exact ((twb_snd_suffix budget (fmtLen m) ms).trans (List.suffix_cons m ms))

/-- Workhorse for batch-count monotonicity: starting a (larger-budget) batch
anywhere inside a suffix leaves a leftover that is a suffix of what the
smaller-budget batch leaves. -/
theorem restOf_suffix_twb (b1 b2 : Nat) (hb : b1 ≤ b2) :
    ∀ (t1 : List Msg) (acc1 : Nat) (l2 : List Msg), l2 <:+ t1 →
      restOf b2 l2 <:+ (twb b1 acc1 t1).2 := by
  intro t1
  induction t1 with
  | nil =>
    intro acc1 l2 hs
    rw [List.suffix_nil.mp hs]
    simp [twb, restOf]
  | cons m ms ih =>
    intro acc1 l2 hs
    by_cases h1 : acc1 + fmtLen m > b1
    · simp only [twb, if_pos h1]
      exact (restOf_suffix b2 l2).trans hs
    · simp only [twb, if_neg h1]
      rcases List.suffix_cons_iff.mp hs with heq | hsuf
      · subst heq
        exact twb_snd_suffix_mono b1 b2 hb ms (acc1 + fmtLen m) (fmtLen m)
          (Nat.le_add_left _ _)
      · exact ih (acc1 + fmtLen m) l2 hsuf

theorem restOf_mono (b1 b2 : Nat) (hb : b1 ≤ b2) (l1 l2 : List Msg) (hs : l2 <:+ l1) :
    restOf b2 l2 <:+ restOf b1 l1 := by
  cases l1 with
  | nil =>
    rw [List.suffix_nil.mp hs]
    simp [restOf]
  | cons m ms =>
    show restOf b2 l2 <:+ (twb b1 (fmtLen m) ms).2
    rcases List.suffix_cons_iff.mp hs with heq | hsuf
    · subst heq
      exact twb_snd_suffix_mono b1 b2 hb ms (fmtLen m) (fmtLen m) (Nat.le_refl _)
    · exact restOf_suffix_twb b1 b2 hb ms (fmtLen m) l2 hsuf

theorem chunkSpec_cons_restOf (budget : Nat) (m : Msg) (ms : List Msg) :
    (chunkSpec budget (m :: ms)).length =
      (chunkSpec budget (restOf budget (m :: ms))).length + 1 := by
  rw [chunkSpec_cons]
  simp [restOf]

theorem chunkSpec_count_mono_aux (b1 b2 : Nat) (hb : b1 ≤ b2) :
    ∀ (n : Nat) (l1 l2 : List Msg), l1.length ≤ n → l2 <:+ l1 →
      (chunkSpec b2 l2).length ≤ (chunkSpec b1 l1).length := by
  intro n
  induction n with
  | zero =>
    intro l1 l2 hl hs
    have h1 : l1 = [] := List.eq_nil_of_length_eq_zero (Nat.le_zero.mp hl)
    subst h1
    rw [List.suffix_nil.mp hs]
    simp [chunkSpec_nil]
  | succ n ih =>
    intro l1 l2 hl hs
    cases l2 with
    | nil => simp [chunkSpec_nil]
    | cons x xs =>
      cases l1 with
      | nil => simp [List.suffix_nil] at hs
      | cons y ys =>
        rw [chunkSpec_cons_restOf b2 x xs, chunkSpec_cons_restOf b1 y ys]
        refine Nat.add_le_add_right ?_ 1
        refine ih (restOf b1 (y :: ys)) (restOf b2 (x :: xs)) ?_
          (restOf_mono b1 b2 hb _ _ hs)
        calc (restOf b1 (y :: ys)).length
            ≤ ys.length := (twb_snd_length b1 (fmtLen y) ys)
          _ ≤ n := Nat.lt_succ_iff.mp hl

/-- C3: for every bucket B and every character budget C > 0, concatenating
the batches of chunk_messages(B, C) in order reproduces B exactly, element
for element and in order, and the sum of the batch lengths equals the
length of B. -/
theorem C3_partition_totality (B : List Msg) (C : Nat) (h : 0 < C) :
    (chunk_messages B C).flatten = B ∧
      ((chunk_messages B C).map List.length).sum = B.length := by
  have h1 : (chunk_messages B C).flatten = B := by
    rw [chunk_messages_eq_chunkSpec]
    exact chunkSpec_join_aux C B.length B (Nat.le_refl _)
  refine ⟨h1, ?_⟩
  calc ((chunk_messages B C).map List.length).sum
      = (chunk_messages B C).flatten.length := (List.length_flatten _).symm
    _ = B.length := by rw [h1]

/-- Witness for C3 at a concrete bucket and budget. -/
theorem C3_partition_totality_witness :
    0 < 6000 ∧
      ((chunk_messages [Msg.mk "a" "bc" 0] 6000).flatten = [Msg.mk "a" "bc" 0] ∧
        ((chunk_messages [Msg.mk "a" "bc" 0] 6000).map List.length).sum =
          [Msg.mk "a" "bc" 0].length) :=
  ⟨by decide, C3_partition_totality [Msg.mk "a" "bc" 0] 6000 (by decide)⟩

/-- C4: every batch produced by chunk_messages has the sum of its records'
formatted lengths (length of "sender: body" when the sender is non-empty,
else of "body") at most C, or consists of exactly one record whose own
formatted length exceeds C. -/
theorem C4_budget_respect (B : List Msg) (C : Nat) (batch : List Msg)
    (hb : batch ∈ chunk_messages B C) :
    (batch.map fmtLen).sum ≤ C ∨ ∃ m, batch = [m] ∧ C < fmtLen m := by
  rw [chunk_messages_eq_chunkSpec] at hb
  exact chunkSpec_batch_bound C B.length B (Nat.le_refl _) batch hb

/-- Witness for C4: a single over-long record forms its own singleton batch. -/
theorem C4_budget_respect_witness :
    [Msg.mk "" "abcd" 0] ∈ chunk_messages [Msg.mk "" "abcd" 0] 2 ∧
      (([Msg.mk "" "abcd" 0].map fmtLen).sum ≤ 2 ∨
        ∃ m, [Msg.mk "" "abcd" 0] = [m] ∧ 2 < fmtLen m) :=
  ⟨by decide, C4_budget_respect [Msg.mk "" "abcd" 0] 2 [Msg.mk "" "abcd" 0] (by decide)⟩

/-- C6: for budgets C1 ≤ C2, chunk_messages with the smaller budget C1 never
produces fewer batches than with the larger budget C2. -/
theorem C6_monotone_batch_count (B : List Msg) (C1 C2 : Nat) (h : C1 ≤ C2) :
    (chunk_messages B C2).length ≤ (chunk_messages B C1).length := by
  rw [chunk_messages_eq_chunkSpec, chunk_messages_eq_chunkSpec]
  exact chunkSpec_count_mono_aux C1 C2 h B.length B B (Nat.le_refl _)
    (List.suffix_refl B)

/-- Witness for C6 at a concrete bucket and a concrete pair of budgets. -/
theorem C6_monotone_batch_count_witness :
    (5 : Nat) ≤ 10 ∧
      (chunk_messages [Msg.mk "" "abcd" 0, Msg.mk "" "efgh" 0] 10).length ≤
        (chunk_messages [Msg.mk "" "abcd" 0, Msg.mk "" "efgh" 0] 5).length :=
  ⟨by decide,
    C6_monotone_batch_count [Msg.mk "" "abcd" 0, Msg.mk "" "efgh" 0] 5 10 (by decide)⟩

/-- A message sender as exposed by the transport client. -/
structure TgUser where
  first_name : Option String
  username : Option String
deriving DecidableEq, Repr

/-- A raw message from the transport client: optional text (None models a
media-only or service message), optional sender, timestamp. -/
structure TgMessage where
  text : Option String
  from_user : Option TgUser
  date : Nat
deriving DecidableEq, Repr

/-- The chat identity fields read by the fetch functions. -/
structure TgChat where
  id : Int
  title : Option String
  first_name : Option String
deriving DecidableEq, Repr

/-- One dialog from client.get_dialogs(); `history` abstracts the client so
that get_chat_history(chat.id, limit=n) yields the first n of `history`. -/
structure Dialog where
  chat : TgChat
  unread_messages_count : Nat
  history : List TgMessage
deriving DecidableEq, Repr

/-- Python `a or b` over an optional string, where None and "" are falsy. -/
def pyStrOr (a : Option String) (b : String) : String :=
  match a with
  | some s => if s = "" then b else s
  | none => b

/-- `chat_name = dialog.chat.title or dialog.chat.first_name or "Unknown"`. -/
def chatNameOf (d : Dialog) : String :=
  pyStrOr d.chat.title (pyStrOr d.chat.first_name "Unknown")

/-- `if msg.text:` — the message carries non-empty text. -/
def hasText (m : TgMessage) : Bool :=
  match m.text with
  | some s => s != ""
  | none => false

/-- Sender resolution: `msg.from_user.first_name or msg.from_user.username
or ""` when from_user is present, else the empty string. -/
def senderOf (m : TgMessage) : String :=
  match m.from_user with
  | some u => pyStrOr u.first_name (pyStrOr u.username "")
  | none => ""

/-- The record dict appended to the bucket. -/
def mkRecord (m : TgMessage) : Msg :=
  ⟨senderOf m, m.text.getD "", m.date⟩

/-- The shared inner message loop of both fetch functions: skip non-text
messages, append a record for each text message, bump the running total,
and break once the total reaches `cap`. -/
def acceptLoop (cap : Nat) : List TgMessage → Nat → List Msg × Nat
  | [], t => ([], t)
  | msg :: rest, t =>
    if hasText msg then
      if t + 1 ≥ cap then ([mkRecord msg], t + 1)
      else
        let p := acceptLoop cap rest (t + 1)
        (mkRecord msg :: p.1, p.2)
    else acceptLoop cap rest t

/-- Append records to the bucket keyed `k`, the defaultdict(list) behaviour:
an existing key grows in place, a new key is appended at the end. -/
def upsertMsgs : List (String × List Msg) → String → List Msg → List (String × List Msg)
  | [], k, v => [(k, v)]
  | (k', v') :: rest, k, v =>
    if k' = k then (k', v' ++ v) :: rest else (k', v') :: upsertMsgs rest k v

/-- Record the accepted messages of one dialog; when nothing was accepted
the defaultdict is never touched, so no key is created. -/
def addMsgs (m : List (String × List Msg)) (k : String) (v : List Msg) :
    List (String × List Msg) :=
  if v = [] then m else upsertMsgs m k v

/-- Total number of records across all buckets. -/
def totalMsgs (m : List (String × List Msg)) : Nat :=
  (m.map (fun p => p.2.length)).sum

/-- The loop of fetch_unread_messages over dialogs, carrying
(messages_by_chat, chats_processed, total_messages). -/
def fetch_unread_go (max_chats max_messages : Nat) :
    List Dialog → List (String × List Msg) → Nat → Nat → List (String × List Msg)
  | [], m, _, _ => m
  | d :: ds, m, chats_processed, total_messages =>
    if d.unread_messages_count > 0 then
      if chats_processed ≥ max_chats ∨ total_messages ≥ max_messages then m
      else
        let remaining := max_messages - total_messages
        let count := min (min d.unread_messages_count 50) remaining
        let p := acceptLoop max_messages (d.history.take count) total_messages
        fetch_unread_go max_chats max_messages ds
          (addMsgs m (chatNameOf d) p.1) (chats_processed + 1) p.2
    else fetch_unread_go max_chats max_messages ds m chats_processed total_messages

/-- fetch_unread_messages from summarize.py, with the transport client
abstracted as the dialog list. -/
def fetch_unread_messages (dialogs : List Dialog) (max_chats max_messages : Nat) :
    List (String × List Msg) :=
  fetch_unread_go max_chats max_messages dialogs [] 0 0

/-- Executable substring test (Python `needle in hay` on str). -/
def strContainsSub (hay needle : String) : Bool :=
  hay.data.tails.any (fun t => needle.data.isPrefixOf t)

/-- Python str.lower(), modelled character-wise (ASCII case folding). -/
def pyLower (s : String) : String :=
  ⟨s.data.map Char.toLower⟩

/-- The `continue` guard of fetch_last_messages:
`chat_filter and chat_filter.lower() not in chat_name.lower()`. -/
def filterSkips (chat_filter : Option String) (chat_name : String) : Bool :=
  match chat_filter with
  | none => false
  | some s => s != "" && !(strContainsSub (pyLower chat_name) (pyLower s))

/-- The loop of fetch_last_messages over dialogs, carrying
(messages_by_chat, total_fetched). -/
def fetch_last_go (limit : Nat) (chat_filter : Option String) :
    List Dialog → List (String × List Msg) → Nat → List (String × List Msg)
  | [], m, _ => m
  | d :: ds, m, total_fetched =>
    if total_fetched ≥ limit then m
    else if filterSkips chat_filter (chatNameOf d) then
      fetch_last_go limit chat_filter ds m total_fetched
    else
      let remaining := limit - total_fetched
      let p := acceptLoop limit (d.history.take remaining) total_fetched
      fetch_last_go limit chat_filter ds (addMsgs m (chatNameOf d) p.1) p.2

/-- fetch_last_messages from summarize.py. -/
def fetch_last_messages (dialogs : List Dialog) (limit : Nat)
    (chat_filter : Option String) : List (String × List Msg) :=
  fetch_last_go limit chat_filter dialogs [] 0

theorem acceptLoop_spec (cap : Nat) :
    ∀ (l : List TgMessage) (t : Nat),
      (acceptLoop cap l t).2 = t + (acceptLoop cap l t).1.length ∧
        (t < cap → (acceptLoop cap l t).2 ≤ cap) := by
  intro l
  induction l with
  | nil =>
    intro t
    exact ⟨by simp [acceptLoop], fun h => by simpa [acceptLoop] using Nat.le_of_lt h⟩
  | cons msg rest ih =>
    intro t
    by_cases htext : hasText msg
    · by_cases hcap : t + 1 ≥ cap
      · refine ⟨by simp [acceptLoop, htext, hcap], fun ht => ?_⟩
        simp only [acceptLoop, if_pos htext, if_pos hcap]
        exact ht
      · have := ih (t + 1)
        refine ⟨?_, fun _ => ?_⟩
        · simp only [acceptLoop, if_pos htext, if_neg hcap, List.length_cons]
          omega
        · simp only [acceptLoop, if_pos htext, if_neg hcap]
          exact this.2 (Nat.lt_of_not_le hcap)
    · simpa [acceptLoop, htext] using ih t

theorem totalMsgs_upsert :
    ∀ (m : List (String × List Msg)) (k : String) (v : List Msg),
      totalMsgs (upsertMsgs m k v) = totalMsgs m + v.length := by
  intro m
  induction m with
  | nil => intro k v; simp [upsertMsgs, totalMsgs]
  | cons hd tl ih =>
    intro k v
    by_cases hk : hd.1 = k
    · simp [upsertMsgs, hk, totalMsgs]
      omega
    · simp [upsertMsgs, hk, totalMsgs] at ih ⊢
      rw [ih]
      omega

theorem totalMsgs_addMsgs (m : List (String × List Msg)) (k : String) (v : List Msg) :
    totalMsgs (addMsgs m k v) = totalMsgs m + v.length := by
  by_cases hv : v = []
  · simp [addMsgs, hv]
  · simp [addMsgs, hv, totalMsgs_upsert]

theorem length_upsert :
    ∀ (m : List (String × List Msg)) (k : String) (v : List Msg),
      (upsertMsgs m k v).length ≤ m.length + 1 := by
  intro m
  induction m with
  | nil => intro k v; simp [upsertMsgs]
  | cons hd tl ih =>
    intro k v
    by_cases hk : hd.1 = k
    · simp [upsertMsgs, hk]
    · simp only [upsertMsgs, if_neg hk, List.length_cons]
      exact Nat.add_le_add_right (ih k v) 1

theorem length_addMsgs (m : List (String × List Msg)) (k : String) (v : List Msg) :
    (addMsgs m k v).length ≤ m.length + 1 := by
  by_cases hv : v = []
  · simp [addMsgs, hv]
  · simp only [addMsgs, if_neg hv]
    exact length_upsert m k v

theorem fetch_unread_go_bound (maxc maxm : Nat) :
    ∀ (ds : List Dialog) (m : List (String × List Msg)) (cp t : Nat),
      totalMsgs m ≤ t → t ≤ maxm → m.length ≤ cp → cp ≤ maxc →
      totalMsgs (fetch_unread_go maxc maxm ds m cp t) ≤ maxm ∧
        (fetch_unread_go maxc maxm ds m cp t).length ≤ maxc := by
  intro ds
  induction ds with
  | nil =>
    intro m cp t h1 h2 h3 h4
    exact ⟨le_trans h1 h2, le_trans h3 h4⟩
  | cons d ds ih =>
    intro m cp t h1 h2 h3 h4
    by_cases hu : d.unread_messages_count > 0
    · by_cases hbrk : cp ≥ maxc ∨ t ≥ maxm
      · simp only [fetch_unread_go, if_pos hu, if_pos hbrk]
        exact ⟨le_trans h1 h2, le_trans h3 h4⟩
      · push_neg at hbrk
        simp only [fetch_unread_go, if_pos hu, if_neg (by push_neg; exact hbrk :
          ¬(cp ≥ maxc ∨ t ≥ maxm))]
        set cnt := min (min d.unread_messages_count 50) (maxm - t) with hcnt
        have hal := acceptLoop_spec maxm (d.history.take cnt) t
        refine ih _ (cp + 1) (acceptLoop maxm (d.history.take cnt) t).2 ?_ ?_ ?_ ?_
        · rw [totalMsgs_addMsgs, hal.1]
          exact Nat.add_le_add_right h1 _
        · exact hal.2 hbrk.2
        · exact le_trans (length_addMsgs m _ _) (Nat.add_le_add_right h3 1)
        · exact hbrk.1
    · simp only [fetch_unread_go, if_neg hu]
      exact ih m cp t h1 h2 h3 h4

theorem fetch_last_go_bound (limit : Nat) (cf : Option String) :
    ∀ (ds : List Dialog) (m : List (String × List Msg)) (t : Nat),
      totalMsgs m ≤ t → t ≤ limit →
      totalMsgs (fetch_last_go limit cf ds m t) ≤ limit := by
  intro ds
  induction ds with
  | nil => intro m t h1 h2; exact le_trans h1 h2
  | cons d ds ih =>
    intro m t h1 h2
    by_cases hbrk : t ≥ limit
    · simp only [fetch_last_go, if_pos hbrk]
      exact le_trans h1 h2
    · by_cases hskip : filterSkips cf (chatNameOf d) = true
      · simp only [fetch_last_go, if_neg hbrk, if_pos hskip]
        exact ih m t h1 h2
      · simp only [fetch_last_go, if_neg hbrk, if_neg hskip]
        have hal := acceptLoop_spec limit (d.history.take (limit - t)) t
        refine ih _ _ ?_ (hal.2 (Nat.lt_of_not_le hbrk))
        rw [totalMsgs_addMsgs, hal.1]
        exact Nat.add_le_add_right h1 _

theorem mem_keys_upsert :
    ∀ (m : List (String × List Msg)) (k : String) (v : List Msg) (name : String),
      name ∈ (upsertMsgs m k v).map Prod.fst →
      name = k ∨ name ∈ m.map Prod.fst := by
  intro m
  induction m with
  | nil =>
    intro k v name h
    simp [upsertMsgs] at h
    exact Or.inl h
  | cons hd tl ih =>
    intro k v name h
    by_cases hk : hd.1 = k
    · simp only [upsertMsgs, if_pos hk, List.map_cons, List.mem_cons] at h
      rcases h with h | h
      · exact Or.inr (by simp [h])
      · exact Or.inr (by simp [h])
    · simp only [upsertMsgs, if_neg hk, List.map_cons, List.mem_cons] at h
      rcases h with h | h
      · exact Or.inr (by simp [h])
      · rcases ih k v name h with h' | h'
        · exact Or.inl h'
        · exact Or.inr (by simp [h'])

theorem mem_keys_addMsgs (m : List (String × List Msg)) (k : String) (v : List Msg)
    (name : String) (h : name ∈ (addMsgs m k v).map Prod.fst) :
    name = k ∨ name ∈ m.map Prod.fst := by
  by_cases hv : v = []
  · simp only [addMsgs, if_pos hv] at h
    exact Or.inr h
  · exact mem_keys_upsert m k v name (by simpa only [addMsgs, if_neg hv] using h)

theorem fetch_last_go_keys (limit : Nat) (cf : Option String) :
    ∀ (ds : List Dialog) (m : List (String × List Msg)) (t : Nat) (name : String),
      name ∈ (fetch_last_go limit cf ds m t).map Prod.fst →
      name ∈ m.map Prod.fst ∨ filterSkips cf name = false := by
  intro ds
  induction ds with
  | nil => intro m t name h; exact Or.inl h
  | cons d ds ih =>
    intro m t name h
    by_cases hbrk : t ≥ limit
    · simp only [fetch_last_go, if_pos hbrk] at h
      exact Or.inl h
    · by_cases hskip : filterSkips cf (chatNameOf d) = true
      · simp only [fetch_last_go, if_neg hbrk, if_pos hskip] at h
        exact ih m t name h
      · simp only [fetch_last_go, if_neg hbrk, if_neg hskip] at h
        rcases ih _ _ name h with h' | h'
        · rcases mem_keys_addMsgs m (chatNameOf d) _ name h' with h'' | h''
          · subst h''
            exact Or.inr (Bool.eq_false_iff.mpr hskip)
          · exact Or.inl h''
        · exact Or.inr h'

theorem isPrefixOf_exists :
    ∀ (a b : List Char), a.isPrefixOf b = true → ∃ r, b = a ++ r := by
  intro a
  induction a with
  | nil => intro b _; exact ⟨b, rfl⟩
  | cons x xs ih =>
    intro b h
    cases b with
    | nil => simp [List.isPrefixOf] at h
    | cons y ys =>
      simp only [List.isPrefixOf, Bool.and_eq_true, beq_iff_eq] at h
      rcases ih ys h.2 with ⟨r, hr⟩
      exact ⟨r, by rw [h.1, hr]; rfl⟩

theorem mem_tails_exists :
    ∀ (l t : List Char), t ∈ l.tails → ∃ a, l = a ++ t := by
  intro l
  induction l with
  | nil =>
    intro t h
    simp [List.tails] at h
    exact ⟨[], by simp [h]⟩
  | cons x xs ih =>
    intro t h
    rw [List.tails_cons] at h
    rcases List.mem_cons.mp h with h' | h'
    · exact ⟨[], by simp [h']⟩
    · rcases ih t h' with ⟨a, ha⟩
      exact ⟨x :: a, by simp [ha]⟩

theorem strContainsSub_exists (hay needle : String)
    (h : strContainsSub hay needle = true) :
    ∃ pre post, hay.data = pre ++ needle.data ++ post := by
  unfold strContainsSub at h
  rcases List.any_eq_true.mp h with ⟨t, ht, hpre⟩
  rcases mem_tails_exists hay.data t ht with ⟨a, ha⟩
  rcases isPrefixOf_exists needle.data t hpre with ⟨r, hr⟩
  exact ⟨a, r, by rw [ha, hr, List.append_assoc]⟩

/-- Python str.strip(): drop whitespace from both ends. -/
def pyStrip (s : String) : String :=
  ⟨((s.data.dropWhile Char.isWhitespace).reverse.dropWhile Char.isWhitespace).reverse⟩

/-- Python sep.join(parts). -/
def joinSep (sep : String) : List String → String
  | [] => ""
  | [x] => x
  | x :: xs => x ++ sep ++ joinSep sep xs

/-- One "- sender: text" line of format_messages_for_llm (the "- text" form
when the sender is empty). -/
def msgLine (m : Msg) : String :=
  if m.sender = "" then "- " ++ m.text else "- " ++ m.sender ++ ": " ++ m.text

/-- format_messages_for_llm from summarize.py. -/
def format_messages_for_llm (messages : List Msg) (chat_name : String) : String :=
  joinSep "\n" (("Chat: " ++ chat_name) :: "Messages:" :: messages.map msgLine)

/-- The prompt summarize_with_ollama builds around the formatted text. -/
def ollamaPrompt (text : String) : String :=
  "Summarize the following Telegram chat messages in Russian.\n" ++
  "Be concise and focus on key points, action items, and important information.\n" ++
  "Use bullet points. Keep the summary short (3-5 bullet points max).\n\n" ++
  text ++ "\n\nSummary:"

/-- The combining prompt of summarize_chat. -/
def finalPrompt (combined : String) : String :=
  "Combine these summaries into one concise summary in Russian:\n\n" ++
  combined ++ "\n\nFinal summary:"

/-- The prompt issued for one batch of a conversation. -/
def batchPrompt (chat_name : String) (batch : List Msg) : String :=
  ollamaPrompt (format_messages_for_llm batch chat_name)

/-- The per-batch loop of summarize_chat: one generate call per batch; a
raised exception (gen returning none) aborts the loop and propagates.
Returns the prompts actually issued and, on success, the stripped
per-batch summaries. -/
def summarizeBatches (chat_name model : String) (gen : String → String → Option String) :
    List (List Msg) → List String × Option (List String)
  | [] => ([], some [])
  | c :: cs =>
    let p := batchPrompt chat_name c
    match gen model p with
    | none => ([p], none)
    | some r =>
      let rest := summarizeBatches chat_name model gen cs
      (p :: rest.1, rest.2.map (fun l => pyStrip r :: l))

/-- summarize_chat from summarize.py, instrumented with the list of prompts
issued: chunk at MAX_CONTEXT_CHARS, summarize each chunk, and when more
than one summary exists issue one combining call whose stripped answer
replaces them. -/
def summarize_chat_run (chat_name : String) (messages : List Msg) (model : String)
    (gen : String → String → Option String) : List String × Option (List String) :=
  let chunks := chunk_messages messages MAX_CONTEXT_CHARS
  let b := summarizeBatches chat_name model gen chunks
  match b.2 with
  | none => (b.1, none)
  | some summaries =>
    if summaries.length > 1 then
      let fp := finalPrompt (joinSep "\n\n" summaries)
      match gen model fp with
      | none => (b.1 ++ [fp], none)
      | some r => (b.1 ++ [fp], some [pyStrip r])
    else (b.1, some summaries)

/-- The summarization loop of main. main wraps summarize_chat in no
try/except, so an exception escaping one conversation aborts the whole
loop and the accumulated results dict never reaches display_results.
Returns the prompts issued and, on success, the results mapping entries
(chat name, message count, joined summary). -/
def runChats (model : String) (gen : String → String → Option String) :
    List (String × List Msg) → List String × Option (List (String × Nat × String))
  | [] => ([], some [])
  | (name, msgs) :: rest =>
    let s := summarize_chat_run name msgs model gen
    match s.2 with
    | none => (s.1, none)
    | some sums =>
      let r := runChats model gen rest
      (s.1 ++ r.1, r.2.map (fun l => (name, msgs.length, joinSep "\n" sums) :: l))

/-- The argparse surface of main that the claims mention. -/
structure Args where
  unread : Bool
  last : Option Int
  chat : Option String
  model : String
  list_chats : Bool
  max_chats : Nat
  max_messages : Nat
deriving DecidableEq, Repr

/-- Python truthiness of args.last: None and 0 are both falsy. -/
def lastTruthy : Option Int → Bool
  | none => false
  | some n => n != 0

/-- The validation check of main:
`if not args.unread and not args.last and not args.list_chats`. -/
def usageError (args : Args) : Bool :=
  !args.unread && !(lastTruthy args.last) && !args.list_chats

/-- The fetch dispatch of main: unread mode wins and ignores args.last;
otherwise last-N mode runs with `limit = min(args.last, args.max_messages)`
(a non-positive last behaves as a zero limit). -/
def fetchFor (args : Args) (dialogs : List Dialog) : List (String × List Msg) :=
  if args.unread then fetch_unread_messages dialogs args.max_chats args.max_messages
  else fetch_last_messages dialogs (min (args.last.getD 0).toNat args.max_messages) args.chat

/-- Observable outcome of a run of main: usage error (help text printed,
sys.exit(1)), the --list-chats listing, the "No messages found." early
return, a completed run handing `results` to display_results, or an
unhandled exception from the generation backend. -/
inductive MainResult where
  | usage
  | listed
  | noMessages
  | ran (results : List (String × Nat × String))
  | crashed
deriving DecidableEq, Repr

/-- Process exit status of each outcome: sys.exit(1) on the usage error, a
nonzero traceback exit on an unhandled exception, 0 otherwise. -/
def exit_code : MainResult → Nat
  | .usage => 1
  | .crashed => 1
  | _ => 0

/-- The control flow of main after the setup checks (modelled as passing:
they only inspect credentials and the backend, which the claims treat as
configured): validation, --list-chats, fetch, the empty-selection early
return, and the summarize loop. Returns the outcome and the generation
prompts issued. -/
def mainRun (args : Args) (dialogs : List Dialog)
    (gen : String → String → Option String) : MainResult × List String :=
  if usageError args then (.usage, [])
  else if args.list_chats then (.listed, [])
  else
    let mbc := fetchFor args dialogs
    if mbc = [] then (.noMessages, [])
    else
      let r := runChats args.model gen mbc
      match r.2 with
      | none => (.crashed, r.1)
      | some results => (.ran results, r.1)

/-- The string s contains the given parts as disjoint substrings, in order. -/
def containsInOrder (s : String) : List String → Prop
  | [] => True
  | p :: ps => ∃ s1 s2, s = s1 ++ p ++ s2 ∧ containsInOrder s2 ps

theorem containsInOrder_joinSep (sep : String) :
    ∀ (xs : List String) (a b : String),
      containsInOrder (a ++ (joinSep sep xs ++ b)) xs := by
  intro xs
  induction xs with
  | nil => intro a b; trivial
  | cons x xs ih =>
    intro a b
    cases xs with
    | nil =>
      exact ⟨a, b, by simp [joinSep, String.append_assoc], trivial⟩
    | cons y ys =>
      refine ⟨a, sep ++ (joinSep sep (y :: ys) ++ b), ?_, ih sep b⟩
      simp [joinSep, String.append_assoc]

/-- The stripped per-batch summaries a total generator produces. -/
def partSums (chat_name model : String) (gen : String → String → Option String)
    (chunks : List (List Msg)) : List String :=
  chunks.map (fun c => pyStrip ((gen model (batchPrompt chat_name c)).getD ""))

theorem summarizeBatches_total (chat_name model : String)
    (gen : String → String → Option String)
    (htot : ∀ p, (gen model p).isSome) :
    ∀ chunks : List (List Msg),
      summarizeBatches chat_name model gen chunks =
        (chunks.map (batchPrompt chat_name),
          some (partSums chat_name model gen chunks)) := by
  intro chunks
  induction chunks with
  | nil => simp [summarizeBatches, partSums]
  | cons c cs ih =>
    rcases Option.isSome_iff_exists.mp (htot (batchPrompt chat_name c)) with ⟨r, hr⟩
    simp [summarizeBatches, hr, ih, partSums]

theorem runChats_none_iff (model : String) (gen : String → String → Option String) :
    ∀ chats : List (String × List Msg),
      (runChats model gen chats).2 = none ↔
        ∃ c ∈ chats, (summarize_chat_run c.1 c.2 model gen).2 = none := by
  intro chats
  induction chats with
  | nil => simp [runChats]
  | cons hd rest ih =>
    obtain ⟨name, msgs⟩ := hd
    simp only [runChats]
    cases hs : (summarize_chat_run name msgs model gen).2 with
    | none =>
      simp only [hs]
      constructor
      · intro _
        exact ⟨(name, msgs), List.mem_cons_self _ _, hs⟩
      · intro _
        trivial
    | some sums =>
      simp only [hs, Option.map_eq_none']
      rw [ih]
      constructor
      · intro h
        rcases h with ⟨c, hc, hcn⟩
        exact ⟨c, List.mem_cons_of_mem _ hc, hcn⟩
      · intro h
        rcases h with ⟨c, hc, hcn⟩
        rcases List.mem_cons.mp hc with hc' | hc'
        · exfalso
          rw [hc'] at hcn
          simp only [hs] at hcn
          exact Option.noConfusion hcn
        · exact ⟨c, hc', hcn⟩

/-- C5: when chunking a conversation yields exactly one batch, the Reducer
issues exactly one generation call for it (no combining call); when it
yields k > 1 batches, the Reducer issues exactly k + 1 calls and the last
call's prompt (the combining prompt) contains every per-batch summary as a
substring, in batch order. -/
theorem C5_reducer_call_counts (chat_name : String) (messages : List Msg)
    (model : String) (gen : String → String → Option String)
    (htot : ∀ p, (gen model p).isSome) :
    ((chunk_messages messages MAX_CONTEXT_CHARS).length = 1 →
      (summarize_chat_run chat_name messages model gen).1.length = 1) ∧
    ((chunk_messages messages MAX_CONTEXT_CHARS).length > 1 →
      (summarize_chat_run chat_name messages model gen).1.length =
        (chunk_messages messages MAX_CONTEXT_CHARS).length + 1 ∧
      containsInOrder
        ((summarize_chat_run chat_name messages model gen).1.getLastD "")
        (partSums chat_name model gen (chunk_messages messages MAX_CONTEXT_CHARS))) := by
  have hb := summarizeBatches_total chat_name model gen htot
    (chunk_messages messages MAX_CONTEXT_CHARS)
  have hlen : (partSums chat_name model gen
      (chunk_messages messages MAX_CONTEXT_CHARS)).length =
      (chunk_messages messages MAX_CONTEXT_CHARS).length := by
    simp [partSums]
  constructor
  · intro h1
    simp [summarize_chat_run, hb, hlen, h1]
  · intro h2
    have hgt : (partSums chat_name model gen
        (chunk_messages messages MAX_CONTEXT_CHARS)).length > 1 := by
      rw [hlen]; exact h2
    rcases Option.isSome_iff_exists.mp
      (htot (finalPrompt (joinSep "\n\n"
        (partSums chat_name model gen (chunk_messages messages MAX_CONTEXT_CHARS))))) with ⟨r, hr⟩
    refine ⟨?_, ?_⟩
    · simp [summarize_chat_run, hb, hgt, hr]
    · have hget : (summarize_chat_run chat_name messages model gen).1.getLastD "" =
          finalPrompt (joinSep "\n\n"
            (partSums chat_name model gen (chunk_messages messages MAX_CONTEXT_CHARS))) := by
        simp [summarize_chat_run, hb, hgt, hr]
      rw [hget]
      unfold finalPrompt
      rw [String.append_assoc]
      exact containsInOrder_joinSep "\n\n" _ _ _

/-- Witness for C5: a total generator and a one-batch conversation. -/
theorem C5_reducer_call_counts_witness :
    (∀ p, ((fun (_ _ : String) => some "sum") "m" p).isSome) ∧
    (((chunk_messages [Msg.mk "a" "hello" 0] MAX_CONTEXT_CHARS).length = 1 →
      (summarize_chat_run "A" [Msg.mk "a" "hello" 0] "m"
        (fun _ _ => some "sum")).1.length = 1) ∧
    ((chunk_messages [Msg.mk "a" "hello" 0] MAX_CONTEXT_CHARS).length > 1 →
      (summarize_chat_run "A" [Msg.mk "a" "hello" 0] "m"
        (fun _ _ => some "sum")).1.length =
        (chunk_messages [Msg.mk "a" "hello" 0] MAX_CONTEXT_CHARS).length + 1 ∧
      containsInOrder
        ((summarize_chat_run "A" [Msg.mk "a" "hello" 0] "m"
          (fun _ _ => some "sum")).1.getLastD "")
        (partSums "A" "m" (fun _ _ => some "sum")
          (chunk_messages [Msg.mk "a" "hello" 0] MAX_CONTEXT_CHARS)))) :=
  ⟨fun _ => rfl,
    C5_reducer_call_counts "A" [Msg.mk "a" "hello" 0] "m" (fun _ _ => some "sum")
      (fun _ => rfl)⟩

/-- Two-dialog world for the failure scenario: both have one unread text
message. -/
def cexDialogA : Dialog := ⟨⟨1, some "A", none⟩, 1, [⟨some "hi", none, 0⟩]⟩

/-- Second dialog of the failure scenario. -/
def cexDialogB : Dialog := ⟨⟨2, some "B", none⟩, 1, [⟨some "yo", none, 0⟩]⟩

/-- Generator that succeeds everywhere except on conversation B's batch
prompt, where it raises. -/
def cexGen : String → String → Option String :=
  fun _ p => if p = batchPrompt "B" [Msg.mk "" "yo" 0] then none else some "ok"

/-- An unread-mode invocation with the default limits. -/
def cexArgs : Args := ⟨true, none, none, "m", false, 5, 100⟩

/-- C2 counterexample: with two selected conversations A and B where A's
single generation call succeeds and B's fails, the run does not merely drop
B: the exception aborts main's loop, the outcome is an unhandled crash
(nonzero exit) and no results mapping is produced at all, so the completed
conversation A is not reported — contradicting the claim that completed
conversations are still present in the results. -/
theorem C2_counterexample :
    (summarize_chat_run "A" [Msg.mk "" "hi" 0] "m" cexGen).2 = some ["ok"] ∧
    fetchFor cexArgs [cexDialogA, cexDialogB] =
      [("A", [Msg.mk "" "hi" 0]), ("B", [Msg.mk "" "yo" 0])] ∧
    (mainRun cexArgs [cexDialogA, cexDialogB] cexGen).1 = .crashed ∧
    exit_code (mainRun cexArgs [cexDialogA, cexDialogB] cexGen).1 = 1 := by
  refine ⟨by decide, by decide, by decide, by decide⟩

/-- C2 amended: if any selected conversation's summarization fails mid-run,
the whole run aborts with an unhandled exception (nonzero exit) and
produces no results mapping — conversations completed before the failure
are not reported either. -/
theorem C2_amended_failure_aborts_run (args : Args) (dialogs : List Dialog)
    (gen : String → String → Option String)
    (hu : usageError args = false) (hl : args.list_chats = false)
    (hc : ∃ c ∈ fetchFor args dialogs,
      (summarize_chat_run c.1 c.2 args.model gen).2 = none) :
    (mainRun args dialogs gen).1 = .crashed ∧
      exit_code (mainRun args dialogs gen).1 = 1 := by
  rcases hc with ⟨c, hcmem, hcfail⟩
  have hne : fetchFor args dialogs ≠ [] := List.ne_nil_of_mem hcmem
  have hnone : (runChats args.model gen (fetchFor args dialogs)).2 = none :=
    (runChats_none_iff args.model gen (fetchFor args dialogs)).mpr ⟨c, hcmem, hcfail⟩
  have hmain : (mainRun args dialogs gen).1 = .crashed := by
    simp only [mainRun, hu, Bool.false_eq_true, if_false, hl, if_neg hne]
    rw [show (runChats args.model gen (fetchFor args dialogs)) =
      ((runChats args.model gen (fetchFor args dialogs)).1, none) from
        Prod.ext rfl hnone]
  exact ⟨hmain, by rw [hmain]; rfl⟩

/-- Witness for the amended C2 at the concrete failure scenario. -/
theorem C2_amended_failure_aborts_run_witness :
    usageError cexArgs = false ∧ cexArgs.list_chats = false ∧
    (∃ c ∈ fetchFor cexArgs [cexDialogA, cexDialogB],
      (summarize_chat_run c.1 c.2 cexArgs.model cexGen).2 = none) ∧
    (mainRun cexArgs [cexDialogA, cexDialogB] cexGen).1 = .crashed ∧
      exit_code (mainRun cexArgs [cexDialogA, cexDialogB] cexGen).1 = 1 :=
  ⟨by decide, by decide, by decide,
    C2_amended_failure_aborts_run cexArgs [cexDialogA, cexDialogB] cexGen
      (by decide) (by decide) (by decide)⟩

/-- Six dialogs, each holding one text message. -/
def sixDialogs : List Dialog :=
  [⟨⟨1, some "D1", none⟩, 0, [⟨some "m1", none, 0⟩]⟩,
   ⟨⟨2, some "D2", none⟩, 0, [⟨some "m2", none, 0⟩]⟩,
   ⟨⟨3, some "D3", none⟩, 0, [⟨some "m3", none, 0⟩]⟩,
   ⟨⟨4, some "D4", none⟩, 0, [⟨some "m4", none, 0⟩]⟩,
   ⟨⟨5, some "D5", none⟩, 0, [⟨some "m5", none, 0⟩]⟩,
   ⟨⟨6, some "D6", none⟩, 0, [⟨some "m6", none, 0⟩]⟩]

/-- A last-N invocation (--last 100) with the default max-chats of 5. -/
def lastArgs : Args := ⟨false, some 100, none, "m", false, DEFAULT_MAX_CHATS, 100⟩

/-- C1 counterexample: in last-N mode the Selector never consults the
configured max-conversations limit (fetch_last_messages takes no such
parameter), so a run configured with max-chats 5 visits and returns six
conversations. -/
theorem C1_counterexample :
    lastArgs.max_chats = DEFAULT_MAX_CHATS ∧
    (fetchFor lastArgs sixDialogs).length = 6 ∧
    ¬((fetchFor lastArgs sixDialogs).length ≤ lastArgs.max_chats) := by
  refine ⟨by decide, by decide, by decide⟩

/-- C1 amended: in unread mode both limits hold (total accepted messages ≤
max-messages and conversations ≤ max-chats); in last-N mode the total
accepted messages never exceed the effective limit — which main caps at
max-messages — but the max-conversations limit is not applied. -/
theorem C1_amended_selection_limits :
    (∀ (dialogs : List Dialog) (maxc maxm : Nat),
      totalMsgs (fetch_unread_messages dialogs maxc maxm) ≤ maxm ∧
        (fetch_unread_messages dialogs maxc maxm).length ≤ maxc) ∧
    (∀ (dialogs : List Dialog) (limit : Nat) (cf : Option String),
      totalMsgs (fetch_last_messages dialogs limit cf) ≤ limit) ∧
    (∀ (args : Args) (dialogs : List Dialog),
      totalMsgs (fetchFor args dialogs) ≤ args.max_messages) := by
  have hunread : ∀ (dialogs : List Dialog) (maxc maxm : Nat),
      totalMsgs (fetch_unread_messages dialogs maxc maxm) ≤ maxm ∧
        (fetch_unread_messages dialogs maxc maxm).length ≤ maxc := by
    intro dialogs maxc maxm
    exact fetch_unread_go_bound maxc maxm dialogs [] 0 0
      (by simp [totalMsgs]) (Nat.zero_le _) (by simp) (Nat.zero_le _)
  have hlast : ∀ (dialogs : List Dialog) (limit : Nat) (cf : Option String),
      totalMsgs (fetch_last_messages dialogs limit cf) ≤ limit := by
    intro dialogs limit cf
    exact fetch_last_go_bound limit cf dialogs [] 0 (by simp [totalMsgs]) (Nat.zero_le _)
  refine ⟨hunread, hlast, ?_⟩
  intro args dialogs
  unfold fetchFor
  by_cases hu : args.unread
  · simp only [hu, if_true]
    exact (hunread dialogs args.max_chats args.max_messages).1
  · simp only [hu, Bool.false_eq_true, if_false]
    exact le_trans (hlast dialogs _ args.chat) (Nat.min_le_right _ _)

/-- C7: in last-N mode with a non-empty name filter, every conversation
name appearing as a key of the Selector's result contains the filter
string case-insensitively (so no conversation failing the
case-insensitive substring match appears). -/
theorem C7_filter_correctness (dialogs : List Dialog) (limit : Nat) (s : String)
    (hs : s ≠ "") (p : String × List Msg)
    (hp : p ∈ fetch_last_messages dialogs limit (some s)) :
    ∃ pre post, (pyLower p.1).data = pre ++ (pyLower s).data ++ post := by
  have hk : p.1 ∈ (fetch_last_messages dialogs limit (some s)).map Prod.fst :=
    List.mem_map_of_mem Prod.fst hp
  rcases fetch_last_go_keys limit (some s) dialogs [] 0 p.1 hk with h | h
  · simp at h
  · have hc : strContainsSub (pyLower p.1) (pyLower s) = true := by
      simp [filterSkips, hs] at h
      exact h
    exact strContainsSub_exists _ _ hc

/-- Witness for C7 at a concrete filtered run. -/
theorem C7_filter_correctness_witness :
    "work" ≠ "" ∧
    ("Work Chat", [Msg.mk "" "hi" 0]) ∈
      fetch_last_messages [⟨⟨1, some "Work Chat", none⟩, 0, [⟨some "hi", none, 0⟩]⟩]
        10 (some "work") ∧
    ∃ pre post, (pyLower "Work Chat").data = pre ++ (pyLower "work").data ++ post :=
  ⟨by decide, by decide,
    C7_filter_correctness [⟨⟨1, some "Work Chat", none⟩, 0, [⟨some "hi", none, 0⟩]⟩]
      10 "work" (by decide) ("Work Chat", [Msg.mk "" "hi" 0]) (by decide)⟩

/-- C8: chunking an empty bucket yields an empty sequence of batches (zero
batches, not one empty batch) for every budget; and a validated,
non-listing run whose Selector returns an empty mapping prints the
"No messages found." notice, issues no generation calls, and exits 0. -/
theorem C8_empty_input :
    (∀ C : Nat, chunk_messages [] C = []) ∧
    (∀ (args : Args) (dialogs : List Dialog) (gen : String → String → Option String),
      usageError args = false → args.list_chats = false →
      fetchFor args dialogs = [] →
      mainRun args dialogs gen = (.noMessages, []) ∧
        exit_code (mainRun args dialogs gen).1 = 0) := by
  refine ⟨fun _ => rfl, ?_⟩
  intro args dialogs gen hu hl hf
  have hm : mainRun args dialogs gen = (.noMessages, []) := by
    simp [mainRun, hu, hl, hf]
  exact ⟨hm, by rw [hm]; rfl⟩

/-- Witness for C8: an unread-mode run over an empty dialog list. -/
theorem C8_empty_input_witness :
    usageError ⟨true, none, none, "m", false, 5, 100⟩ = false ∧
    Args.list_chats ⟨true, none, none, "m", false, 5, 100⟩ = false ∧
    fetchFor ⟨true, none, none, "m", false, 5, 100⟩ [] = [] ∧
    (mainRun ⟨true, none, none, "m", false, 5, 100⟩ [] (fun _ _ => some "x") =
        (.noMessages, []) ∧
      exit_code (mainRun ⟨true, none, none, "m", false, 5, 100⟩ []
        (fun _ _ => some "x")).1 = 0) :=
  ⟨by decide, by decide, by decide,
    (C8_empty_input.2 ⟨true, none, none, "m", false, 5, 100⟩ [] (fun _ _ => some "x")
      (by decide) (by decide) (by decide))⟩

/-- C9: invoking with --last 0 and no other mode flag fails the truthiness
validation check exactly like selecting no mode at all: the help text is
printed and the process exits with status 1, before any fetching. -/
theorem C9_last_zero_is_usage_error (chat : Option String) (model : String)
    (maxc maxm : Nat) (dialogs : List Dialog)
    (gen : String → String → Option String) :
    mainRun ⟨false, some 0, chat, model, false, maxc, maxm⟩ dialogs gen =
      (.usage, []) ∧
    mainRun ⟨false, some 0, chat, model, false, maxc, maxm⟩ dialogs gen =
      mainRun ⟨false, none, chat, model, false, maxc, maxm⟩ dialogs gen ∧
    exit_code (mainRun ⟨false, some 0, chat, model, false, maxc, maxm⟩
      dialogs gen).1 = 1 :=
  ⟨rfl, rfl, rfl⟩

/-- C10: supplying both --unread and --last N passes the validation check
(no usage error), and the run is identical to one without --last: unread
mode takes precedence and the last-N value is ignored for fetching. -/
theorem C10_unread_precedence (n : Int) (chat : Option String) (model : String)
    (lc : Bool) (maxc maxm : Nat) (dialogs : List Dialog)
    (gen : String → String → Option String) :
    usageError ⟨true, some n, chat, model, lc, maxc, maxm⟩ = false ∧
    fetchFor ⟨true, some n, chat, model, lc, maxc, maxm⟩ dialogs =
      fetch_unread_messages dialogs maxc maxm ∧
    mainRun ⟨true, some n, chat, model, lc, maxc, maxm⟩ dialogs gen =
      mainRun ⟨true, none, chat, model, lc, maxc, maxm⟩ dialogs gen :=
  ⟨rfl, rfl, rfl⟩

end TgSummarizer
